import Mathlib

/-!
Shallow embedding of the snarkVM gadget layer (circuit types and the
bytecode Div instruction), together with proofs about its operations.

The definitions below are translated from the Rust sources:
  * src/circuit/types/field/src/ternary.rs        (Field ternary gate, its Metrics and OutputMode)
  * src/circuit/types/integers/src/xor.rs         (Integer XOR, its Metrics and OutputMode)
  * src/circuits/types/scalar/src/from_bits.rs    (Scalar from_bits_le / from_bits_be)
  * src/bytecode/src/function/instructions/div.rs (Div instruction evaluate)

Machine integers are modelled as Nat/Int with explicit range conditions;
field elements are modelled over an arbitrary commutative ring.  Circuit
construction is modelled prover-side: every circuit value carries its
assigned value and its mode, and the growing constraint system is passed
as explicit state.  A fatal halt is modelled as an error value.
-/

namespace SnarkVM

/-- The visibility mode of a circuit value: Constant, Public, or Private. -/
inductive Mode where
  | Constant : Mode
  | Public : Mode
  | Private : Mode
deriving DecidableEq, Repr

/-- Mirrors Mode::is_constant. -/
def Mode.is_constant : Mode → Bool
  | Mode.Constant => true
  | _ => false

/-- A cost quadruple, mirroring Count::is(constants, public, private, constraints):
the exact number of constant wires, public wires, private wires, and constraints
a gate consumes. -/
structure Count where
  constants : Nat
  publics : Nat
  privates : Nat
  constraints : Nat
deriving DecidableEq, Repr

/-- Mirrors Count::is. -/
def Count.is (a b c d : Nat) : Count := ⟨a, b, c, d⟩

/-- A circuit boolean, prover-side: its assigned value and its mode. -/
structure BoolVar where
  value : Bool
  mode : Mode
deriving DecidableEq, Repr

/-- Mirrors Boolean::constant. -/
def BoolVar.constant (b : Bool) : BoolVar := ⟨b, Mode.Constant⟩

/-- Mirrors CircuitType of V: the Constant variant carries the circuit itself
(so its assigned value can be ejected); the Public and Private variants carry
nothing. -/
inductive CircuitType (V : Type) where
  | Constant : V → CircuitType V
  | Public : CircuitType V
  | Private : CircuitType V
deriving DecidableEq, Repr

/-- Mirrors CircuitType::mode: the mode determined by the variant. -/
def CircuitType.mode {V : Type} : CircuitType V → Mode
  | CircuitType.Constant _ => Mode.Constant
  | CircuitType.Public => Mode.Public
  | CircuitType.Private => Mode.Private

/-! ### Field ternary gate (src/circuit/types/field/src/ternary.rs) -/

/-- A circuit field element, prover-side: its assigned value and its mode. -/
structure FieldVar (F : Type) where
  value : F
  mode : Mode

/-- The prover-side constraint state a field gate writes into: the count of
private wires allocated so far and the enforced constraint triples, each
recorded by the values its three linear combinations take under the honest
witness.  A triple (a, b, c) is satisfied when a * b = c. -/
structure FieldCtx (F : Type) where
  privates : Nat
  enforced : List (F × F × F)

/-- Injection of a boolean into the field, mirroring Field::from_boolean. -/
def boolToF (F : Type) [CommRing F] (b : Bool) : F := if b then 1 else 0

/-- Mirrors Ternary::ternary for Field: constant condition folds to a clone of
the chosen branch; constant branches are combined linearly as
condition * first + (1 - condition) * second with no constraint; otherwise a
private witness holding the selected value is allocated and the single
constraint condition * (first - second) = witness - second is enforced.
The mode recorded for the linear-combination branch is the condition's mode,
reflecting that the resulting linear combination reuses the condition's wire. -/
def fieldTernary (F : Type) [CommRing F] (condition : BoolVar) (first second : FieldVar F)
    (s : FieldCtx F) : FieldVar F × FieldCtx F :=
  if condition.mode.is_constant then
    (if condition.value then first else second, s)
  else if first.mode.is_constant && second.mode.is_constant then
    (⟨boolToF F condition.value * first.value + boolToF F (!condition.value) * second.value,
      condition.mode⟩, s)
  else
    let witness : FieldVar F := ⟨if condition.value then first.value else second.value, Mode.Private⟩
    (witness,
     ⟨s.privates + 1,
      s.enforced ++ [(boolToF F condition.value, first.value - second.value,
                      witness.value - second.value)]⟩)

/-- Mirrors Metrics::count for the Field ternary gate. -/
def fieldTernaryCount : Mode × Mode × Mode → Count
  | (Mode.Constant, _, _) => Count.is 0 0 0 0
  | (Mode.Public, Mode.Constant, Mode.Constant) => Count.is 0 0 0 0
  | (Mode.Private, Mode.Constant, Mode.Constant) => Count.is 0 0 0 0
  | _ => Count.is 0 0 1 1

/-- Mirrors OutputMode::output_mode for the Field ternary gate; the halt branch
(condition mode Constant without the constant circuit available) is modelled
as none. -/
def fieldTernaryOutputMode (parameter : CircuitType BoolVar × Mode × Mode) : Option Mode :=
  match parameter.1.mode.is_constant with
  | true =>
    match parameter.1 with
    | CircuitType.Constant circuit =>
      match circuit.value with
      | true => some parameter.2.1
      | false => some parameter.2.2
    | _ => none
  | false => some Mode.Private

/-! ### Integer XOR (src/circuit/types/integers/src/xor.rs) -/

/-- A circuit integer, prover-side: the little-endian list of its circuit bits.
The word width is the length of the list. -/
structure IntegerVar where
  bits_le : List BoolVar
deriving DecidableEq, Repr

/-- Modelled from the spec: the bit-level Boolean XOR gate is not among the
provided sources (only the integer word-level XOR is); per the spec's bitwise
gate family rule, XOR of two Constant bits folds to a Constant bit, a single
Constant bit folds into the other operand's linear combination (so the output
keeps the other operand's mode), and two non-constant bits produce a Private
bit.  The assigned value is the Boolean XOR of the operand values. -/
def boolXorBit (a b : BoolVar) : BoolVar :=
  if a.mode.is_constant && b.mode.is_constant then ⟨xor a.value b.value, Mode.Constant⟩
  else if a.mode.is_constant then ⟨xor a.value b.value, b.mode⟩
  else if b.mode.is_constant then ⟨xor a.value b.value, a.mode⟩
  else ⟨xor a.value b.value, Mode.Private⟩

/-- Mirrors BitXorAssign::bitxor_assign for Integer: the output's bit list is
the pointwise XOR of the two operands' bit lists, paired by zip_eq.  The
zip_eq combinator panics when the lengths differ; that halt is modelled as
none. -/
def integerBitXor (a b : IntegerVar) : Option IntegerVar :=
  if a.bits_le.length = b.bits_le.length then
    some ⟨(a.bits_le.zip b.bits_le).map (fun p => boolXorBit p.1 p.2)⟩
  else
    none

/-- Mirrors Integer::eject_value().is_zero(): an integer circuit value is zero
exactly when every one of its assigned bits is false. -/
def IntegerVar.is_zero (a : IntegerVar) : Bool :=
  a.bits_le.all (fun b => !b.value)

/-- Mirrors Metrics::count for Integer XOR, with the word width I::BITS passed
as the parameter bits. -/
def integerXorCount (bits : Nat) : Mode × Mode → Count
  | (Mode.Constant, _) => Count.is 0 0 0 0
  | (_, Mode.Constant) => Count.is 0 0 0 0
  | (_, _) => Count.is 0 0 bits bits

/-- Mirrors OutputMode::output_mode for Integer XOR; the halt branch (a mode
that is Constant without the constant circuit available) is modelled as none.
The Rust or-pattern tries the left alternative (first operand Constant)
first. -/
def integerXorOutputMode (case0 case1 : CircuitType IntegerVar) : Option Mode :=
  match case0.mode, case1.mode with
  | Mode.Constant, Mode.Constant => some Mode.Constant
  | Mode.Constant, m =>
    match case0 with
    | CircuitType.Constant constant =>
      some (if constant.is_zero then m else Mode.Private)
    | _ => none
  | m, Mode.Constant =>
    match case1 with
    | CircuitType.Constant constant =>
      some (if constant.is_zero then m else Mode.Private)
    | _ => none
  | _, _ => some Mode.Private

/-! ### Scalar from_bits (src/circuits/types/scalar/src/from_bits.rs) -/

/-- A circuit scalar, prover-side: the little-endian list of its circuit bits,
mirroring the Scalar struct. -/
structure ScalarVar where
  bits_le : List BoolVar
deriving DecidableEq, Repr

/-- The prover-side constraint state the scalar gadget writes into: wire
counters, the number of constraints, and the list of asserted booleans
recorded by the values they take under the honest witness.  The constraint
system is satisfiable (for the witness the builder itself computed) exactly
when every asserted boolean is true. -/
structure BitCtx where
  privates : Nat
  constraints : Nat
  asserted : List Bool
deriving DecidableEq, Repr

/-- The empty constraint state. -/
def BitCtx.empty : BitCtx := ⟨0, 0, []⟩

/-- Satisfiability of the recorded constraint system under the honest
witness: every asserted boolean holds. -/
def BitCtx.satisfiable (s : BitCtx) : Bool := s.asserted.all id

/-- Allocation of one private wire together with one constraint. -/
def BitCtx.addWire (s : BitCtx) : BitCtx := ⟨s.privates + 1, s.constraints + 1, s.asserted⟩

/-- Mirrors E::assert_eq(E::zero(), b): one constraint forcing the boolean b
to be zero; it is satisfied exactly when b's assigned value is false. -/
def BitCtx.assertZero (s : BitCtx) (b : BoolVar) : BitCtx :=
  ⟨s.privates, s.constraints + 1, s.asserted ++ [!b.value]⟩

/-- Mirrors E::assert(b): one constraint forcing the boolean b to be one; it
is satisfied exactly when b's assigned value is true. -/
def BitCtx.assertTrue (s : BitCtx) (b : BoolVar) : BitCtx :=
  ⟨s.privates, s.constraints + 1, s.asserted ++ [b.value]⟩

/-- Boolean negation; free on the circuit, value-level complement. -/
def boolNot (a : BoolVar) : BoolVar := ⟨!a.value, a.mode⟩

/-- Modelled from the spec: the Boolean OR gate is not among the provided
sources; per the spec's bitwise gate family rule, a Constant operand folds
(true absorbs, false is the identity) at zero cost, and two non-constant
operands allocate one private wire and one constraint.  The assigned value
is the Boolean OR of the operand values. -/
def boolOr (a b : BoolVar) (s : BitCtx) : BoolVar × BitCtx :=
  if a.mode.is_constant then (if a.value then a else b, s)
  else if b.mode.is_constant then (if b.value then b else a, s)
  else (⟨a.value || b.value, Mode.Private⟩, s.addWire)

/-- Modelled from the spec: the Boolean ternary gate is not among the
provided sources; it follows the field ternary gate's structure (§4.3 of the
spec): a Constant condition folds to the chosen branch at zero cost, and
otherwise a private witness holding the selected value is allocated with one
constraint. -/
def boolTernaryBit (condition first second : BoolVar) (s : BitCtx) : BoolVar × BitCtx :=
  if condition.mode.is_constant then
    (if condition.value then first else second, s)
  else
    (⟨if condition.value then first.value else second.value, Mode.Private⟩, s.addWire)

/-- The fold of the Boolean OR gate across a list of bits, mirroring
bits_le[size_in_bits..].iter().fold(Boolean::constant(false), acc | bit). -/
def orFold (l : List BoolVar) (acc : BoolVar) (s : BitCtx) : BoolVar × BitCtx :=
  match l with
  | [] => (acc, s)
  | b :: t =>
    let r := boolOr acc b s
    orFold t r.1 r.2

/-- The comparison-chain fold of from_bits_le, mirroring the fold over
modulus_minus_one_bits_le.iter().zip_eq(bits_le): at a position where the
modulus-minus-one bit is 1 the step is ternary(not other, other, rest), and
where it is 0 the step is ternary(other, other, rest). -/
def ltFold (pairs : List (Bool × BoolVar)) (acc : BoolVar) (s : BitCtx) : BoolVar × BitCtx :=
  match pairs with
  | [] => (acc, s)
  | (m, o) :: t =>
    let r :=
      if m then boolTernaryBit (boolNot o) o acc s
      else boolTernaryBit o o acc s
    ltFold t r.1 r.2

/-- The environment parameters from_bits_le draws from E::ScalarField:
size_in_data_bits, size_in_bits, and the little-endian bits of the scalar
field modulus minus one (-E::ScalarField::one()).to_bits_le(), a list of
length sizeBits. -/
structure ScalarParams where
  dataBits : Nat
  sizeBits : Nat
  mmoBits : List Bool
deriving DecidableEq, Repr

/-- The sanitized bit list of from_bits_le: truncated to size_in_bits via
take, then resized up to size_in_bits with constant false bits, mirroring
bits_le.iter().take(size_in_bits) followed by resize(size_in_bits, false). -/
def sanitizedBits (sizeBits : Nat) (bits_le : List BoolVar) : List BoolVar :=
  bits_le.take sizeBits
    ++ List.replicate (sizeBits - (bits_le.take sizeBits).length) (BoolVar.constant false)

/-- The excess-bit suppression step of from_bits_le: when more bits are
supplied than size_in_bits, the excess bits are OR-folded into should_be_zero
and E::assert_eq(E::zero(), should_be_zero) is issued; otherwise the state is
untouched. -/
def excessCtx (p : ScalarParams) (bits_le : List BoolVar) (s : BitCtx) : BitCtx :=
  if bits_le.length > p.sizeBits then
    (orFold (bits_le.drop p.sizeBits) (BoolVar.constant false) s).2.assertZero
      (orFold (bits_le.drop p.sizeBits) (BoolVar.constant false) s).1
  else s

/-- Mirrors FromBits::from_bits_le for Scalar: when more bits are supplied
than size_in_bits, the excess bits are OR-folded and asserted zero
(excessCtx); the bit list is truncated to size_in_bits and resized up with
constant false bits (sanitizedBits), giving the output scalar; and when the
number of supplied bits exceeds size_in_data_bits, the comparison chain
against the bits of modulus - 1 is folded up over the sanitized bits and its
negation asserted.  The zip_eq pairing of the chain is modelled by zip; the
two lists agree in length whenever mmoBits has length sizeBits, as the real
to_bits_le guarantees. -/
def scalarFromBitsLe (p : ScalarParams) (bits_le : List BoolVar) (s : BitCtx) :
    ScalarVar × BitCtx :=
  (⟨sanitizedBits p.sizeBits bits_le⟩,
   if bits_le.length > p.dataBits then
     (ltFold (p.mmoBits.zip (sanitizedBits p.sizeBits bits_le)) (BoolVar.constant false)
        (excessCtx p bits_le s)).2.assertTrue
       (boolNot (ltFold (p.mmoBits.zip (sanitizedBits p.sizeBits bits_le))
          (BoolVar.constant false) (excessCtx p bits_le s)).1)
   else excessCtx p bits_le s)

/-- Mirrors FromBits::from_bits_be for Scalar: reverse into little-endian and
defer to from_bits_le. -/
def scalarFromBitsBe (p : ScalarParams) (bits_be : List BoolVar) (s : BitCtx) :
    ScalarVar × BitCtx :=
  scalarFromBitsLe p bits_be.reverse s

/-- The numeric value of a little-endian bit list. -/
def valLe : List Bool → Nat
  | [] => 0
  | b :: t => (if b then 1 else 0) + 2 * valLe t

/-- The little-endian bit expansion of v, padded or truncated to len bits. -/
def natToBitsLe : Nat → Nat → List Bool
  | 0, _ => []
  | len + 1, v => (v % 2 == 1) :: natToBitsLe len (v / 2)

/-- The snarkVM scalar field modulus (the prime order of the Edwards BLS12
subgroup), whose elements occupy 251 bits; size_in_data_bits is 250. -/
def aleoScalarModulus : Nat :=
  2111115437357092606062206234695386632838870926408408195193685246394721360383

/-- The concrete ScalarParams of the snarkVM circuit environment. -/
def aleoScalarParams : ScalarParams :=
  ⟨250, 251, natToBitsLe 251 (aleoScalarModulus - 1)⟩

/-! ### Div instruction (src/bytecode/src/function/instructions/div.rs) -/

/-- The literal operand kinds the Div instruction's match inspects, generic
over the field element type F.  Signed integers carry an Int in two's
complement range for their width, unsigned integers a Nat below 2 ^ width. -/
inductive Literal (F : Type) where
  | field : F → Literal F
  | i8 : Int → Literal F
  | i16 : Int → Literal F
  | i32 : Int → Literal F
  | i64 : Int → Literal F
  | i128 : Int → Literal F
  | u8 : Nat → Literal F
  | u16 : Nat → Literal F
  | u32 : Nat → Literal F
  | u64 : Nat → Literal F
  | u128 : Nat → Literal F
  | boolean : Bool → Literal F
  | address : String → Literal F
  | str : String → Literal F
deriving DecidableEq, Repr

/-- Mirrors Value: a register holds either a literal or a composite
definition (whose payload is irrelevant to Div beyond its name). -/
inductive Value (F : Type) where
  | literal : Literal F → Value F
  | definition : String → Value F
deriving DecidableEq, Repr

/-- Modelled from the spec: DivChecked::div_checked for unsigned circuit
integers on constant operands is not among the provided sources; per the
spec and the halt messages asserted by the Div instruction's tests, it halts
on a zero divisor and otherwise produces the Euclidean quotient. -/
def divCheckedU (a b : Nat) : Except String Nat :=
  if b = 0 then Except.error "Division by zero error"
  else Except.ok (a / b)

/-- Modelled from the spec: DivChecked::div_checked for signed circuit
integers of width w on constant operands is not among the provided sources;
per the spec and the halt messages asserted by the Div instruction's tests,
it halts on a zero divisor, halts on the overflowing case MIN / -1, and
otherwise produces the quotient truncated toward zero. -/
def divCheckedI (w : Nat) (a b : Int) : Except String Int :=
  if b = 0 then Except.error "Division by zero error"
  else if a = -(2 ^ (w - 1)) ∧ b = -1 then
    Except.error "Overflow or underflow on division of two integer constants"
  else Except.ok (a.tdiv b)

/-- Mirrors Operation::evaluate for Div, given the two operand values already
loaded from the registers: a Definition operand halts; a supported pair of
like-typed literals divides (field division directly, integer division via
div_checked); any other pair halts with the invalid-instruction message.
The returned literal is the value assigned to the destination register;
a halt is modelled as an error carrying the halt message. -/
def divEvaluate (F : Type) [Div F] (first second : Value F) : Except String (Literal F) :=
  match first with
  | Value.definition name => Except.error (name ++ " is not a literal")
  | Value.literal first =>
    match second with
    | Value.definition name => Except.error (name ++ " is not a literal")
    | Value.literal second =>
      match first, second with
      | Literal.field a, Literal.field b => Except.ok (Literal.field (a / b))
      | Literal.i8 a, Literal.i8 b => (divCheckedI 8 a b).map Literal.i8
      | Literal.i16 a, Literal.i16 b => (divCheckedI 16 a b).map Literal.i16
      | Literal.i32 a, Literal.i32 b => (divCheckedI 32 a b).map Literal.i32
      | Literal.i64 a, Literal.i64 b => (divCheckedI 64 a b).map Literal.i64
      | Literal.i128 a, Literal.i128 b => (divCheckedI 128 a b).map Literal.i128
      | Literal.u8 a, Literal.u8 b => (divCheckedU a b).map Literal.u8
      | Literal.u16 a, Literal.u16 b => (divCheckedU a b).map Literal.u16
      | Literal.u32 a, Literal.u32 b => (divCheckedU a b).map Literal.u32
      | Literal.u64 a, Literal.u64 b => (divCheckedU a b).map Literal.u64
      | Literal.u128 a, Literal.u128 b => (divCheckedU a b).map Literal.u128
      | _, _ => Except.error "Invalid 'div' instruction"

/-- The literal pairs matched by a dividing arm of Div's evaluate: exactly
the like-typed field and integer pairs; every other pair (boolean, address,
string, or mixed types) falls to the catch-all halting arm. -/
def isDivSupported (F : Type) : Literal F → Literal F → Bool
  | Literal.field _, Literal.field _ => true
  | Literal.i8 _, Literal.i8 _ => true
  | Literal.i16 _, Literal.i16 _ => true
  | Literal.i32 _, Literal.i32 _ => true
  | Literal.i64 _, Literal.i64 _ => true
  | Literal.i128 _, Literal.i128 _ => true
  | Literal.u8 _, Literal.u8 _ => true
  | Literal.u16 _, Literal.u16 _ => true
  | Literal.u32 _, Literal.u32 _ => true
  | Literal.u64 _, Literal.u64 _ => true
  | Literal.u128 _, Literal.u128 _ => true
  | _, _ => false

/-- The pure one-step transition of the comparison chain on assigned bit
values: at a modulus-minus-one bit of 1 the accumulator survives only while
the candidate bit is 1, and at a 0 bit a candidate 1 forces true. -/
def chainStep (rest_is_less : Bool) (mbit obit : Bool) : Bool :=
  if mbit then (if obit then rest_is_less else false)
  else (if obit then true else rest_is_less)

/-- The pure comparison chain on assigned bit values, LSB first. -/
def chainPure : List (Bool × Bool) → Bool → Bool
  | [], acc => acc
  | (m, o) :: t, acc => chainPure t (chainStep acc m o)

/-- The concrete full-width little-endian bit input encoding the scalar field
modulus minus one, supplied as private circuit bits. -/
def mmoPrivateBits : List BoolVar :=
  (natToBitsLe 251 (aleoScalarModulus - 1)).map (fun b => ⟨b, Mode.Private⟩)

/-! ### Helper lemmas -/

theorem boolXorBit_value (a b : BoolVar) : (boolXorBit a b).value = xor a.value b.value := by
  unfold boolXorBit
  split
  · rfl
  · split
    · rfl
    · split <;> rfl

theorem xorZip_zero (xs zs : List BoolVar) (hlen : zs.length = xs.length)
    (hz : ∀ b ∈ zs, b.value = false) :
    ((xs.zip zs).map (fun p => boolXorBit p.1 p.2)).map BoolVar.value
      = xs.map BoolVar.value := by
  induction xs generalizing zs with
  | nil =>
    cases zs with
    | nil => rfl
    | cons z zt => simp at hlen
  | cons x xt ih =>
    cases zs with
    | nil => simp at hlen
    | cons z zt =>
      simp only [List.zip_cons_cons, List.map_cons, boolXorBit_value]
      have hzv : z.value = false := hz z (List.mem_cons_self z zt)
      rw [hzv]
      simp only [List.length_cons, Nat.succ.injEq] at hlen
      rw [ih zt hlen (fun b hb => hz b (List.mem_cons_of_mem z hb))]
      cases hx : x.value <;> rfl

theorem xorZip_ones (xs os : List BoolVar) (hlen : os.length = xs.length)
    (ho : ∀ b ∈ os, b.value = true) :
    ((xs.zip os).map (fun p => boolXorBit p.1 p.2)).map BoolVar.value
      = xs.map (fun b => !b.value) := by
  induction xs generalizing os with
  | nil =>
    cases os with
    | nil => rfl
    | cons o ot => simp at hlen
  | cons x xt ih =>
    cases os with
    | nil => simp at hlen
    | cons o ot =>
      simp only [List.zip_cons_cons, List.map_cons, boolXorBit_value]
      have hov : o.value = true := ho o (List.mem_cons_self o ot)
      rw [hov]
      simp only [List.length_cons, Nat.succ.injEq] at hlen
      rw [ih ot hlen (fun b hb => ho b (List.mem_cons_of_mem o hb))]
      cases hx : x.value <;> rfl

theorem xorZip_pointwise (xs ys : List BoolVar) :
    ((xs.zip ys).map (fun p => boolXorBit p.1 p.2)).map BoolVar.value
      = List.zipWith (fun a b => xor a b) (xs.map BoolVar.value) (ys.map BoolVar.value) := by
  induction xs generalizing ys with
  | nil => rfl
  | cons x xt ih =>
    cases ys with
    | nil => rfl
    | cons y yt =>
      simp only [List.zip_cons_cons, List.map_cons, List.zipWith_cons_cons, boolXorBit_value]
      rw [ih yt]

theorem valLe_replicate_false (n : Nat) : valLe (List.replicate n false) = 0 := by
  induction n with
  | zero => rfl
  | succ k ih =>
    simp only [List.replicate_succ, valLe, ih]
    rfl

theorem boolOr_asserted (a b : BoolVar) (s : BitCtx) : (boolOr a b s).2.asserted = s.asserted := by
  unfold boolOr
  split
  · rfl
  · split
    · rfl
    · rfl

theorem orFold_asserted (l : List BoolVar) (acc : BoolVar) (s : BitCtx) :
    (orFold l acc s).2.asserted = s.asserted := by
  induction l generalizing acc s with
  | nil => rfl
  | cons b t ih => rw [orFold, ih, boolOr_asserted]

theorem boolOr_value (a b : BoolVar) (s : BitCtx) :
    (boolOr a b s).1.value = (a.value || b.value) := by
  unfold boolOr
  split
  · cases ha : a.value <;> simp [ha]
  · split
    · cases hb : b.value <;> simp [hb]
    · rfl

theorem orFold_value (l : List BoolVar) (acc : BoolVar) (s : BitCtx) :
    (orFold l acc s).1.value = (acc.value || l.any (fun b => b.value)) := by
  induction l generalizing acc s with
  | nil => simp [orFold]
  | cons b t ih =>
    rw [orFold, ih, boolOr_value]
    simp [Bool.or_assoc]

theorem boolTernaryBit_value (c a b : BoolVar) (s : BitCtx) :
    (boolTernaryBit c a b s).1.value = if c.value then a.value else b.value := by
  unfold boolTernaryBit
  split
  · cases hc : c.value <;> simp [hc]
  · rfl

theorem boolTernaryBit_asserted (c a b : BoolVar) (s : BitCtx) :
    (boolTernaryBit c a b s).2.asserted = s.asserted := by
  unfold boolTernaryBit
  split
  · rfl
  · rfl

theorem ltFold_asserted (pairs : List (Bool × BoolVar)) (acc : BoolVar) (s : BitCtx) :
    (ltFold pairs acc s).2.asserted = s.asserted := by
  induction pairs generalizing acc s with
  | nil => rfl
  | cons p t ih =>
    rcases p with ⟨m, o⟩
    rcases m with _ | _ <;> simp [ltFold, ih, boolTernaryBit_asserted]

theorem ltFold_value (pairs : List (Bool × BoolVar)) (acc : BoolVar) (s : BitCtx) :
    (ltFold pairs acc s).1.value
      = chainPure (pairs.map (fun p => (p.1, p.2.value))) acc.value := by
  induction pairs generalizing acc s with
  | nil => rfl
  | cons p t ih =>
    rcases p with ⟨m, o⟩
    have hstep0 : (if o.value then o.value else acc.value) = chainStep acc.value false o.value := by
      cases ho : o.value <;> rfl
    have hstep1 : (if (boolNot o).value then o.value else acc.value)
        = chainStep acc.value true o.value := by
      cases ho : o.value <;> simp [boolNot, ho, chainStep]
    rcases m with _ | _ <;>
      simp only [ltFold, Bool.false_eq_true, if_false, if_true, List.map_cons, chainPure, ih,
        boolTernaryBit_value, hstep0, hstep1]

theorem chainPure_lt (m o : List Bool) (acc : Bool) (hlen : m.length = o.length) :
    chainPure (m.zip o) acc
      = if valLe m < valLe o then true else if valLe m = valLe o then acc else false := by
  induction m generalizing o acc with
  | nil =>
    cases o with
    | nil => simp [chainPure, valLe]
    | cons ob ot => simp at hlen
  | cons mb mt ih =>
    cases o with
    | nil => simp at hlen
    | cons ob ot =>
      simp only [List.length_cons, Nat.succ.injEq] at hlen
      have hzip : (mb :: mt).zip (ob :: ot) = (mb, ob) :: mt.zip ot := rfl
      rw [hzip, chainPure, ih ot (chainStep acc mb ob) hlen]
      rcases mb with _ | _ <;> rcases ob with _ | _ <;>
        simp only [chainStep, valLe, Bool.false_eq_true, if_false, if_true] <;>
        split_ifs <;> first | rfl | omega

theorem zip_map_value (m : List Bool) (bs : List BoolVar) :
    (m.zip bs).map (fun q => (q.1, q.2.value)) = m.zip (bs.map BoolVar.value) := by
  induction m generalizing bs with
  | nil => rfl
  | cons mb mt ih =>
    cases bs with
    | nil => rfl
    | cons b bt =>
      have hzip : (mb :: mt).zip (b :: bt) = (mb, b) :: mt.zip bt := rfl
      have hzip2 : (mb :: mt).zip (b.value :: bt.map BoolVar.value)
          = (mb, b.value) :: mt.zip (bt.map BoolVar.value) := rfl
      rw [List.map_cons, hzip, hzip2, List.map_cons, ih bt]

/-! ### Claim theorems -/

/-- C3 counterexample: the claim says the declared cost of the field ternary
gate is exactly (0, 0, 1, 1) whenever the condition is Public or Private
regardless of the branch modes; but at (Public, Constant, Constant) the code
declares (0, 0, 0, 0). -/
theorem fieldTernaryCount_public_const_const :
    fieldTernaryCount (Mode.Public, Mode.Constant, Mode.Constant) = Count.is 0 0 0 0
    ∧ Count.is 0 0 0 0 ≠ Count.is 0 0 1 1 := by
  decide

/-- C3 (amended): the declared cost of the field ternary gate is (0, 0, 0, 0)
when the condition's mode is Constant or when both branch modes are Constant,
and exactly (0, 0, 1, 1) in every other case. -/
theorem fieldTernaryCount_char :
    ∀ m : Mode × Mode × Mode,
      fieldTernaryCount m
        = if m.1 = Mode.Constant ∨ (m.2.1 = Mode.Constant ∧ m.2.2 = Mode.Constant)
          then Count.is 0 0 0 0 else Count.is 0 0 1 1 := by
  rintro ⟨a, b, c⟩
  rcases a <;> rcases b <;> rcases c <;> decide

/-- C5 counterexample: the claim says the ternary output-mode oracle returns
Private when the condition is Constant unless the picked branch is Constant
or both branches share a mode; but with a Constant-true condition, a Public
first branch and a Private second branch, the code returns Public. -/
theorem fieldTernaryOutputMode_picked_branch :
    fieldTernaryOutputMode
        (CircuitType.Constant ⟨true, Mode.Constant⟩, Mode.Public, Mode.Private)
      = some Mode.Public
    ∧ Mode.Public ≠ Mode.Private := by
  decide

/-- C5 (amended): when the condition's CircuitType is the Constant variant the
ternary output-mode oracle returns the mode of the branch selected by the
condition's assigned value, whatever that mode is; when the condition's mode
is not Constant it returns Private; and the halting branch (condition mode
Constant without the constant circuit available) is unreachable, because only
the Constant variant of CircuitType has mode Constant. -/
theorem fieldTernaryOutputMode_char (b : BoolVar) (m1 m2 : Mode) (c : CircuitType BoolVar) :
    fieldTernaryOutputMode (CircuitType.Constant b, m1, m2)
        = some (if b.value then m1 else m2)
    ∧ (c.mode ≠ Mode.Constant → fieldTernaryOutputMode (c, m1, m2) = some Mode.Private)
    ∧ (c.mode = Mode.Constant → ∃ b₀, c = CircuitType.Constant b₀) := by
  refine ⟨?_, ?_, ?_⟩
  · cases hb : b.value <;> simp [fieldTernaryOutputMode, CircuitType.mode, Mode.is_constant, hb]
  · intro hc
    cases c with
    | Constant b₀ => exact absurd rfl hc
    | Public => rfl
    | Private => rfl
  · intro hc
    cases c with
    | Constant b₀ => exact ⟨b₀, rfl⟩
    | Public => exact absurd hc (by decide)
    | Private => exact absurd hc (by decide)

/-- C5 witness: the amended characterization applied at a concrete input with
its hypotheses discharged. -/
theorem fieldTernaryOutputMode_char_app :
    fieldTernaryOutputMode (CircuitType.Public, Mode.Public, Mode.Constant)
      = some Mode.Private :=
  (fieldTernaryOutputMode_char ⟨true, Mode.Constant⟩ Mode.Public Mode.Constant
    CircuitType.Public).2.1 (by decide)

/-- C4 counterexample: the claim says a nonzero Constant XOR operand incurs
the full per-bit cost of BITS constraints; but the declared cost depends only
on the operand modes, and at (Constant, Private) with an 8-bit word the code
declares (0, 0, 0, 0), not (0, 0, 8, 8). -/
theorem integerXorCount_constant_free :
    integerXorCount 8 (Mode.Constant, Mode.Private) = Count.is 0 0 0 0
    ∧ Count.is 0 0 0 0 ≠ Count.is 0 0 8 8 := by
  decide

/-- C4 (amended): the declared cost of integer XOR is (0, 0, 0, 0) whenever
either operand's mode is Constant, regardless of the constant's value, and
(0, 0, BITS, BITS) otherwise; the output mode is Constant when both operands
are Constant, the other operand's mode when exactly one operand is a Constant
equal to zero, Private when exactly one operand is a Constant that is
nonzero, and Private when neither operand is Constant. -/
theorem integerXor_oracle_char (bits : Nat) (m : Mode × Mode) (z : IntegerVar)
    (c c' : CircuitType IntegerVar) :
    (integerXorCount bits m
        = if m.1 = Mode.Constant ∨ m.2 = Mode.Constant then Count.is 0 0 0 0
          else Count.is 0 0 bits bits)
    ∧ (c.mode ≠ Mode.Constant →
        integerXorOutputMode (CircuitType.Constant z) c
            = some (if z.is_zero then c.mode else Mode.Private)
        ∧ integerXorOutputMode c (CircuitType.Constant z)
            = some (if z.is_zero then c.mode else Mode.Private))
    ∧ (∀ z' : IntegerVar,
        integerXorOutputMode (CircuitType.Constant z) (CircuitType.Constant z')
          = some Mode.Constant)
    ∧ (c.mode ≠ Mode.Constant → c'.mode ≠ Mode.Constant →
        integerXorOutputMode c c' = some Mode.Private) := by
  refine ⟨?_, ?_, ?_, ?_⟩
  · rcases m with ⟨m1, m2⟩
    rcases m1 <;> rcases m2 <;> simp [integerXorCount]
  · intro hc
    cases c with
    | Constant z' => exact absurd rfl hc
    | Public => exact ⟨rfl, rfl⟩
    | Private => exact ⟨rfl, rfl⟩
  · intro z'
    rfl
  · intro hc hc'
    cases c with
    | Constant z₀ => exact absurd rfl hc
    | Public =>
      cases c' with
      | Constant z₀ => exact absurd rfl hc'
      | Public => rfl
      | Private => rfl
    | Private =>
      cases c' with
      | Constant z₀ => exact absurd rfl hc'
      | Public => rfl
      | Private => rfl

/-- C4 witness: the amended characterization applied at a concrete input with
its hypotheses discharged. -/
theorem integerXor_oracle_char_app :
    integerXorOutputMode (CircuitType.Constant ⟨[]⟩) CircuitType.Private
        = some (if IntegerVar.is_zero ⟨[]⟩ then Mode.Private else Mode.Private)
    ∧ integerXorOutputMode CircuitType.Public CircuitType.Private = some Mode.Private := by
  refine ⟨?_, ?_⟩
  · exact ((integerXor_oracle_char 8 (Mode.Constant, Mode.Private) ⟨[]⟩
      CircuitType.Private CircuitType.Private).2.1 (by decide)).1
  · exact (integerXor_oracle_char 8 (Mode.Constant, Mode.Private) ⟨[]⟩
      CircuitType.Public CircuitType.Private).2.2.2 (by decide) (by decide)

/-- C7: from_bits_be returns exactly the same scalar and builds exactly the
same circuit as from_bits_le applied to the reversed bit sequence. -/
theorem scalarFromBitsBe_eq_reverse_le :
    ∀ (p : ScalarParams) (bits : List BoolVar) (s : BitCtx),
      scalarFromBitsBe p bits s = scalarFromBitsLe p bits.reverse s := by
  intro p bits s
  rfl

/-- C8: Div::evaluate divides 4u8 by 2u8 into 2u8; halts with the
division-by-zero message on 1u8 / 0u8; halts with the overflow-or-underflow
message on i8::MIN / -1i8; and on every literal pair outside the supported
like-typed field and integer arms (boolean, address, string, or any mixed
pair of types) it halts with the invalid-instruction message, never
returning a value. -/
theorem divEvaluate_cases (F : Type) [Div F] (a b : Literal F) :
    divEvaluate F (Value.literal (Literal.u8 4)) (Value.literal (Literal.u8 2))
        = Except.ok (Literal.u8 2)
    ∧ divEvaluate F (Value.literal (Literal.u8 1)) (Value.literal (Literal.u8 0))
        = Except.error "Division by zero error"
    ∧ divEvaluate F (Value.literal (Literal.i8 (-128))) (Value.literal (Literal.i8 (-1)))
        = Except.error "Overflow or underflow on division of two integer constants"
    ∧ divEvaluate F (Value.literal (Literal.boolean true)) (Value.literal (Literal.boolean true))
        = Except.error "Invalid 'div' instruction"
    ∧ divEvaluate F (Value.literal (Literal.address "aleo1"))
          (Value.literal (Literal.address "aleo1"))
        = Except.error "Invalid 'div' instruction"
    ∧ divEvaluate F (Value.literal (Literal.str "hello")) (Value.literal (Literal.str "world"))
        = Except.error "Invalid 'div' instruction"
    ∧ (isDivSupported F a b = false →
        divEvaluate F (Value.literal a) (Value.literal b)
          = Except.error "Invalid 'div' instruction") := by
  refine ⟨rfl, rfl, ?_, rfl, rfl, rfl, ?_⟩
  · simp [divEvaluate, divCheckedI, Except.map]
  · intro h
    cases a <;> cases b <;> first | rfl | (exfalso; simp [isDivSupported] at h)

/-- C8 witness: the Div theorem applied at a concrete mixed unsupported pair
(u8 and u16) with the unsupported-pair hypothesis discharged. -/
theorem divEvaluate_cases_app :
    divEvaluate Nat (Value.literal (Literal.u8 1)) (Value.literal (Literal.u16 2))
      = Except.error "Invalid 'div' instruction" :=
  (divEvaluate_cases Nat (Literal.u8 1) (Literal.u16 2)).2.2.2.2.2.2 (by decide)

/-- C1: for every boolean condition and all field branches with distinct
values, in every mode combination the field ternary gate returns a value
whose ejected value is the first branch's value when the condition is true
and the second branch's value otherwise; in the general (non-constant) case
it allocates exactly one private witness wire and enforces the single
constraint condition * (first - second) = witness - second, and that
constraint, for condition in {0, 1}, holds exactly for the correct
selection: the dishonest witness (the unselected branch's value) violates
it. -/
theorem fieldTernary_selects (F : Type) [CommRing F] (c : BoolVar) (a b : FieldVar F)
    (s : FieldCtx F) (hne : a.value ≠ b.value) :
    ((fieldTernary F c a b s).1.value = if c.value then a.value else b.value)
    ∧ (c.mode.is_constant = false → (a.mode.is_constant && b.mode.is_constant) = false →
        ((fieldTernary F c a b s).2.privates = s.privates + 1
         ∧ (fieldTernary F c a b s).2.enforced
             = s.enforced ++ [(boolToF F c.value, a.value - b.value,
                 (if c.value then a.value else b.value) - b.value)]
         ∧ (∀ γ w : F, γ = 0 ∨ γ = 1 →
              (γ * (a.value - b.value) = w - b.value ↔
                (γ = 1 ∧ w = a.value) ∨ (γ = 0 ∧ w = b.value)))
         ∧ ¬ ((0 : F) * (a.value - b.value) = a.value - b.value)
         ∧ ¬ ((1 : F) * (a.value - b.value) = b.value - b.value))) := by
  constructor
  · unfold fieldTernary
    split_ifs <;> simp_all [boolToF]
  · intro h1 h2
    have hgen : fieldTernary F c a b s
        = (⟨if c.value then a.value else b.value, Mode.Private⟩,
           ⟨s.privates + 1,
            s.enforced ++ [(boolToF F c.value, a.value - b.value,
              (if c.value then a.value else b.value) - b.value)]⟩) := by
      unfold fieldTernary
      rw [if_neg (by simp [h1]), if_neg (by simp [h2])]
    rw [hgen]
    refine ⟨rfl, rfl, ?_, ?_, ?_⟩
    · intro γ w hγ
      constructor
      · intro heq
        rcases hγ with hγ | hγ
        · subst hγ
          rw [zero_mul] at heq
          exact Or.inr ⟨rfl, (sub_eq_zero.mp heq.symm)⟩
        · subst hγ
          rw [one_mul] at heq
          exact Or.inl ⟨rfl, (sub_left_inj.mp heq).symm⟩
      · rintro (⟨hγ1, hw⟩ | ⟨hγ0, hw⟩)
        · subst hγ1
          subst hw
          rw [one_mul]
        · subst hγ0
          subst hw
          rw [zero_mul, sub_self]
    · intro h
      rw [zero_mul] at h
      exact hne (sub_eq_zero.mp h.symm)
    · intro h
      rw [one_mul, sub_self] at h
      exact hne (sub_eq_zero.mp h)

/-- C1 witness: the ternary theorem applied at a concrete input (a Private
condition selecting between two distinct Public field values) with its
hypothesis discharged. -/
theorem fieldTernary_selects_app :
    (fieldTernary Int ⟨true, Mode.Private⟩ ⟨3, Mode.Public⟩ ⟨5, Mode.Public⟩ ⟨0, []⟩).1.value
      = if true then (3 : Int) else 5 :=
  (fieldTernary_selects Int ⟨true, Mode.Private⟩ ⟨3, Mode.Public⟩ ⟨5, Mode.Public⟩ ⟨0, []⟩
    (by decide)).1

/-- C6: XOR with the zero integer (all bits false) ejects the same value as
the other operand, bit for bit, and XOR with the all-ones integer ejects the
bitwise complement of the other operand's value, for any width and any
modes. -/
theorem integerBitXor_identity_complement (x z o : IntegerVar)
    (hzl : z.bits_le.length = x.bits_le.length)
    (hz : ∀ b ∈ z.bits_le, b.value = false)
    (hol : o.bits_le.length = x.bits_le.length)
    (ho : ∀ b ∈ o.bits_le, b.value = true) :
    (∃ r, integerBitXor x z = some r
       ∧ r.bits_le.map BoolVar.value = x.bits_le.map BoolVar.value)
    ∧ (∃ r, integerBitXor x o = some r
       ∧ r.bits_le.map BoolVar.value = x.bits_le.map (fun b => !b.value)) := by
  constructor
  · refine ⟨⟨(x.bits_le.zip z.bits_le).map (fun p => boolXorBit p.1 p.2)⟩, ?_, ?_⟩
    · unfold integerBitXor
      rw [if_pos hzl.symm]
    · exact xorZip_zero x.bits_le z.bits_le hzl hz
  · refine ⟨⟨(x.bits_le.zip o.bits_le).map (fun p => boolXorBit p.1 p.2)⟩, ?_, ?_⟩
    · unfold integerBitXor
      rw [if_pos hol.symm]
    · exact xorZip_ones x.bits_le o.bits_le hol ho

/-- C6 witness: the identity and complement theorem applied at the concrete
8-bit input 0x00 with the constant operands 0x00 and 0xFF, its hypotheses
discharged; in particular 0x00 XOR 0xFF ejects 0xFF. -/
theorem integerBitXor_identity_complement_app :
    (∃ r, integerBitXor ⟨List.replicate 8 ⟨false, Mode.Private⟩⟩
              ⟨List.replicate 8 ⟨false, Mode.Constant⟩⟩ = some r
       ∧ r.bits_le.map BoolVar.value
           = (List.replicate 8 (⟨false, Mode.Private⟩ : BoolVar)).map BoolVar.value)
    ∧ (∃ r, integerBitXor ⟨List.replicate 8 ⟨false, Mode.Private⟩⟩
              ⟨List.replicate 8 ⟨true, Mode.Constant⟩⟩ = some r
       ∧ r.bits_le.map BoolVar.value
           = (List.replicate 8 (⟨false, Mode.Private⟩ : BoolVar)).map (fun b => !b.value)) :=
  integerBitXor_identity_complement
    ⟨List.replicate 8 ⟨false, Mode.Private⟩⟩
    ⟨List.replicate 8 ⟨false, Mode.Constant⟩⟩
    ⟨List.replicate 8 ⟨true, Mode.Constant⟩⟩
    (by decide) (by decide) (by decide) (by decide)

/-- C10: integer XOR is strictly pointwise and width-preserving: on operands
of equal width the output exists, has the same width, and its bit values are
exactly the pointwise Boolean XOR of the operands' bit values; on operands of
different widths the zip_eq pairing halts. -/
theorem integerBitXor_pointwise (x y : IntegerVar) :
    (x.bits_le.length = y.bits_le.length →
       ∃ r, integerBitXor x y = some r
         ∧ r.bits_le.length = x.bits_le.length
         ∧ r.bits_le.map BoolVar.value
             = List.zipWith (fun a b => xor a b) (x.bits_le.map BoolVar.value)
                 (y.bits_le.map BoolVar.value))
    ∧ (x.bits_le.length ≠ y.bits_le.length → integerBitXor x y = none) := by
  constructor
  · intro h
    refine ⟨⟨(x.bits_le.zip y.bits_le).map (fun p => boolXorBit p.1 p.2)⟩, ?_, ?_, ?_⟩
    · unfold integerBitXor
      rw [if_pos h]
    · simp only [List.length_map, List.length_zip]
      omega
    · exact xorZip_pointwise x.bits_le y.bits_le
  · intro h
    unfold integerBitXor
    rw [if_neg h]

/-- C10 witness: the pointwise theorem applied at concrete inputs, the first
with equal widths and the second with unequal widths, hypotheses
discharged. -/
theorem integerBitXor_pointwise_app :
    (∃ r, integerBitXor ⟨[⟨true, Mode.Private⟩, ⟨false, Mode.Private⟩]⟩
              ⟨[⟨true, Mode.Public⟩, ⟨true, Mode.Public⟩]⟩ = some r
       ∧ r.bits_le.length
           = (IntegerVar.mk [⟨true, Mode.Private⟩, ⟨false, Mode.Private⟩]).bits_le.length
       ∧ r.bits_le.map BoolVar.value
           = List.zipWith (fun a b => xor a b)
               ((IntegerVar.mk [⟨true, Mode.Private⟩, ⟨false, Mode.Private⟩]).bits_le.map
                 BoolVar.value)
               ((IntegerVar.mk [⟨true, Mode.Public⟩, ⟨true, Mode.Public⟩]).bits_le.map
                 BoolVar.value))
    ∧ integerBitXor ⟨[⟨true, Mode.Private⟩]⟩ ⟨[]⟩ = none := by
  constructor
  · exact (integerBitXor_pointwise ⟨[⟨true, Mode.Private⟩, ⟨false, Mode.Private⟩]⟩
      ⟨[⟨true, Mode.Public⟩, ⟨true, Mode.Public⟩]⟩).1 (by decide)
  · exact (integerBitXor_pointwise ⟨[⟨true, Mode.Private⟩]⟩ ⟨[]⟩).2 (by decide)

/-- C9: from_bits_le always returns a scalar whose internal little-endian bit
vector has exactly size_in_bits entries, namely the first size_in_bits input
bits padded at the top with constant-false bits; when the input is longer
than size_in_bits the excess bits are constrained to be all zero; when no bit
count threshold is crossed no wires or constraints are added; and the empty
input yields the zero scalar. -/
theorem scalarFromBitsLe_shape (p : ScalarParams) (bits : List BoolVar) (s : BitCtx) :
    ((scalarFromBitsLe p bits s).1.bits_le.length = p.sizeBits)
    ∧ ((scalarFromBitsLe p bits s).1.bits_le
        = bits.take p.sizeBits
          ++ List.replicate (p.sizeBits - (bits.take p.sizeBits).length)
              (BoolVar.constant false))
    ∧ (bits.length > p.sizeBits →
        (!((bits.drop p.sizeBits).any (fun b => b.value)))
          ∈ (scalarFromBitsLe p bits s).2.asserted)
    ∧ (bits.length ≤ p.dataBits → p.dataBits ≤ p.sizeBits →
        (scalarFromBitsLe p bits s).2 = s)
    ∧ (bits = [] → valLe ((scalarFromBitsLe p bits s).1.bits_le.map BoolVar.value) = 0) := by
  have hout : (scalarFromBitsLe p bits s).1 = ⟨sanitizedBits p.sizeBits bits⟩ := rfl
  refine ⟨?_, ?_, ?_, ?_, ?_⟩
  · rw [hout]
    unfold sanitizedBits
    simp only [List.length_append, List.length_replicate, List.length_take]
    omega
  · rw [hout]
    rfl
  · intro h
    have hor : (orFold (bits.drop p.sizeBits) (BoolVar.constant false) s).1.value
        = (bits.drop p.sizeBits).any (fun b => b.value) := by
      rw [orFold_value]
      rfl
    have hexcess : excessCtx p bits s
        = (orFold (bits.drop p.sizeBits) (BoolVar.constant false) s).2.assertZero
            (orFold (bits.drop p.sizeBits) (BoolVar.constant false) s).1 := by
      unfold excessCtx
      rw [if_pos h]
    have hmem : (!((bits.drop p.sizeBits).any (fun b => b.value)))
        ∈ (excessCtx p bits s).asserted := by
      simp [hexcess, BitCtx.assertZero, orFold_asserted, hor]
    show _ ∈ (scalarFromBitsLe p bits s).2.asserted
    unfold scalarFromBitsLe
    split_ifs with h2
    · simp only [BitCtx.assertTrue, ltFold_asserted, List.mem_append]
      left
      exact hmem
    · exact hmem
  · intro h1 h2
    show (scalarFromBitsLe p bits s).2 = s
    unfold scalarFromBitsLe
    rw [if_neg (show ¬ bits.length > p.dataBits by omega)]
    unfold excessCtx
    rw [if_neg (show ¬ bits.length > p.sizeBits by omega)]
  · intro h
    subst h
    rw [hout]
    unfold sanitizedBits
    simp only [List.take_nil, List.nil_append, List.length_nil, Nat.sub_zero,
      List.map_replicate]
    have hval : BoolVar.value (BoolVar.constant false) = false := rfl
    rw [hval, valLe_replicate_false]

/-- C9 witness: the shape theorem applied at two concrete inputs, one with
excess bits and one empty, its hypotheses discharged. -/
theorem scalarFromBitsLe_shape_app :
    ((!(([(⟨true, Mode.Public⟩ : BoolVar)].drop 0).any (fun b => b.value)))
        ∈ (scalarFromBitsLe ⟨0, 0, []⟩ [⟨true, Mode.Public⟩] BitCtx.empty).2.asserted)
    ∧ (scalarFromBitsLe ⟨2, 3, [true, false, true]⟩ [] BitCtx.empty).2 = BitCtx.empty := by
  constructor
  · exact (scalarFromBitsLe_shape ⟨0, 0, []⟩ [⟨true, Mode.Public⟩] BitCtx.empty).2.2.1
      (by decide)
  · exact (scalarFromBitsLe_shape ⟨2, 3, [true, false, true]⟩ [] BitCtx.empty).2.2.2.1
      (by decide) (by decide)

set_option maxRecDepth 40000 in
/-- C2 counterexample: a full-width little-endian bit sequence encoding
exactly modulus - 1 (which is at least modulus - 1, the claim's trigger)
yields a satisfiable constraint system: the code proves the value is less
than or equal to modulus - 1, not strictly less than it. -/
theorem scalarFromBitsLe_modulus_minus_one_sat :
    valLe (mmoPrivateBits.map BoolVar.value) = aleoScalarModulus - 1
    ∧ mmoPrivateBits.length = 251
    ∧ (scalarFromBitsLe aleoScalarParams mmoPrivateBits BitCtx.empty).2.satisfiable = true := by
  refine ⟨by decide, by decide, by decide⟩

/-- C2 (amended): for every full-width bit sequence whose encoded value
strictly exceeds modulus - 1 (equivalently, reaches the modulus), from_bits_le
produces an unsatisfiable constraint system: the comparison chain proves the
reconstructed value less than or equal to modulus - 1 and its negation is
asserted, so an out-of-range value can never ride a satisfiable circuit. -/
theorem scalarFromBitsLe_range_unsat (p : ScalarParams) (bits : List BoolVar) (s : BitCtx)
    (hmmo : p.mmoBits.length = p.sizeBits)
    (hlen : bits.length = p.sizeBits)
    (hdata : p.dataBits < p.sizeBits)
    (hval : valLe p.mmoBits < valLe (bits.map BoolVar.value)) :
    (scalarFromBitsLe p bits s).2.satisfiable = false := by
  have htake : bits.take p.sizeBits = bits := by
    rw [← hlen]
    exact List.take_length bits
  have hsan : sanitizedBits p.sizeBits bits = bits := by
    unfold sanitizedBits
    rw [htake, hlen, Nat.sub_self, List.replicate_zero, List.append_nil]
  have hexcess : excessCtx p bits s = s := by
    unfold excessCtx
    rw [if_neg (show ¬ bits.length > p.sizeBits by omega)]
  have hs2 : (scalarFromBitsLe p bits s).2
      = (ltFold (p.mmoBits.zip bits) (BoolVar.constant false) s).2.assertTrue
          (boolNot (ltFold (p.mmoBits.zip bits) (BoolVar.constant false) s).1) := by
    unfold scalarFromBitsLe
    rw [if_pos (show bits.length > p.dataBits by omega), hsan, hexcess]
  have hchain : (ltFold (p.mmoBits.zip bits) (BoolVar.constant false) s).1.value = true := by
    rw [ltFold_value, zip_map_value]
    have hlen2 : p.mmoBits.length = (bits.map BoolVar.value).length := by
      rw [List.length_map, hlen, hmmo]
    have hacc : (BoolVar.constant false).value = false := rfl
    rw [hacc, chainPure_lt p.mmoBits (bits.map BoolVar.value) false hlen2, if_pos hval]
  rw [hs2]
  unfold BitCtx.satisfiable BitCtx.assertTrue
  simp only [boolNot, hchain, List.all_append]
  simp

/-- C2 witness: the amended range theorem applied at a concrete toy
environment (3 full bits, modulus - 1 equal to 5, input encoding 6) with its
hypotheses discharged. -/
theorem scalarFromBitsLe_range_unsat_app :
    (scalarFromBitsLe ⟨1, 3, natToBitsLe 3 5⟩
        ((natToBitsLe 3 6).map (fun b => ⟨b, Mode.Public⟩)) BitCtx.empty).2.satisfiable
      = false :=
  scalarFromBitsLe_range_unsat ⟨1, 3, natToBitsLe 3 5⟩
    ((natToBitsLe 3 6).map (fun b => ⟨b, Mode.Public⟩)) BitCtx.empty
    (by decide) (by decide) (by decide) (by decide)

end SnarkVM
